import Mathlib

/-!
# Verification of the word-selection and history-navigation engine

Shallow embedding of `src/core/word_manager.py` (class `WordManager`) from the
`word_learner` repository, together with theorems settling the specification
claims about it.

Modelling conventions:
* A Python word dictionary `{'word': …, 'translation': …, 'partOfSpeech': …}`
  is the record `Entry` (the three keys are fixed by the class constants
  `KEY_WORD`, `KEY_TRANSLATION`, `KEY_POS`, and every entry created through the
  CRUD surface carries all three).
* The mutable object state of `WordManager` is the record `WordManager`;
  methods become functions `WordManager → … → result × WordManager`.
* Python's `-1` index sentinels are kept, so cursors are `Int`.
* `random.choice(self.words)` is modelled by passing the drawn position as an
  extra argument `k` (reduced `mod` the list length, so every call draws some
  element, as `random.choice` does on a non-empty list).
* File I/O: the outcome of the `json.dump` write in `_save_words` is modelled
  by a boolean argument `ok` (`true` = write succeeds, `false` = `IOError`,
  which the method catches and logs). The returned boolean of `save_words` /
  `save_changes` reports whether the backing file was successfully written.
* The `updates` argument of `edit_word` is `EditPayload`: either `notDict`
  (the caller passed something that fails `isinstance(updates, dict)`) or a
  partial record of the three fields, where `some ""` is a present key whose
  value is the empty string (falsy in Python) and `none` is an absent key.
-/

/-- One vocabulary record, the fixed-shape form of the Python entry dict. -/
structure Entry where
  word : String
  translation : String
  partOfSpeech : String
deriving Repr, DecidableEq

/-- Python slice `l[:k]` (stop index may be negative, counting from the end;
out-of-range stops clamp). -/
def pySliceTo (l : List Entry) (k : Int) : List Entry :=
  if 0 ≤ k then l.take k.toNat else l.take ((l.length : Int) + k).toNat

/-- Python subscript `l[i]` (negative indices count from the end; a
still-out-of-range index raises `IndexError`, modelled as `none`). -/
def pyGet (l : List Entry) (i : Int) : Option Entry :=
  if 0 ≤ i then l.get? i.toNat
  else if 0 ≤ (l.length : Int) + i then l.get? ((l.length : Int) + i).toNat
  else none

/-- The state of a `WordManager` object: the in-memory word list, the cyclic
sequential cursor, the dirty flag, and the history log with its browse
cursor. -/
structure WordManager where
  words : List Entry
  current_index : Int
  is_dirty : Bool
  history : List Entry
  history_index : Int
deriving Repr, DecidableEq

/-- The state right after `__init__` when the file load yielded `ws`
(`_load_words` degrades to `[]` on a missing or malformed file). -/
def WordManager.init (ws : List Entry) : WordManager :=
  { words := ws, current_index := -1, is_dirty := false,
    history := [], history_index := -1 }

/-- The `key` argument of `find_word`: one of the three entry keys. -/
inductive FindKey where
  | word
  | translation
  | partOfSpeech
deriving Repr, DecidableEq

/-- Python `entry.get(key)` for the three fixed keys. -/
def Entry.getKey (e : Entry) : FindKey → String
  | .word => e.word
  | .translation => e.translation
  | .partOfSpeech => e.partOfSpeech

/-- Method `find_word(value_to_find, key)`: with a key, first entry matching on that
key; without, first entry matching on `word` or `translation`. -/
def WordManager.find_word (m : WordManager) (value_to_find : String)
    (key : Option FindKey) : Option Entry :=
  match key with
  | some k => m.words.find? (fun e => e.getKey k = value_to_find)
  | none => m.words.find? (fun e =>
      e.word = value_to_find ∨ e.translation = value_to_find)

/-- First statement of `_add_to_history`: when the browse cursor is not at the
tail, discard every entry after it
(`self.history = self.history[:self.history_index + 1]`). -/
def histTruncate (history : List Entry) (history_index : Int) : List Entry :=
  if history_index < (history.length : Int) - 1
  then pySliceTo history (history_index + 1)
  else history

/-- Second statement of `_add_to_history`: append a copy of `w` unless the
tail already holds the same `word` value, evicting from the front when the
length exceeds 100 (`self.history.append(word.copy())` / `self.history.pop(0)`). -/
def histAppend (h0 : List Entry) (w : Entry) : List Entry :=
  if h0 = [] ∨ h0.getLast?.map Entry.word ≠ some w.word then
    if 100 < (h0 ++ [w]).length then (h0 ++ [w]).drop 1 else h0 ++ [w]
  else h0

/-- Method `_add_to_history(word)`: truncate everything after the browse cursor, then
append a copy unless the (post-truncation) tail already holds the same `word`
value; evict from the front above 100 entries; finally park the browse cursor
at the tail.  (The Python clamp of `history_index` inside the eviction branch
is overwritten by the unconditional final assignment
`self.history_index = len(self.history) - 1`.) -/
def WordManager.add_to_history (m : WordManager) (w : Entry) : WordManager :=
  let h1 := histAppend (histTruncate m.history m.history_index) w
  { m with history := h1, history_index := (h1.length : Int) - 1 }

/-- Method `get_random_word()`: `None` on an empty store, otherwise the drawn entry,
recorded in history.  The draw of `random.choice` is the argument `k`. -/
def WordManager.get_random_word (m : WordManager) (k : Nat) :
    Option Entry × WordManager :=
  if m.words = [] then (none, m)
  else
    match m.words.get? (k % m.words.length) with
    | none => (none, m)
    | some w => (some w, m.add_to_history w)

/-- Method `get_next_word()`: advance the sequential cursor, wrapping to 0 at the
list length, return the entry there and record it in history. -/
def WordManager.get_next_word (m : WordManager) : Option Entry × WordManager :=
  if m.words = [] then (none, m)
  else
    let i0 := m.current_index + 1
    let i := if (m.words.length : Int) ≤ i0 then 0 else i0
    match pyGet m.words i with
    | none => (none, { m with current_index := i })
    | some w => (some w, { m with current_index := i }.add_to_history w)

/-- Method `reset_sequential_index()`: back to the before-start sentinel. -/
def WordManager.reset_sequential_index (m : WordManager) : WordManager :=
  { m with current_index := -1 }

/-- Method `get_previous_word()`: `None` when history is empty or the browse cursor
is at or before the first entry; otherwise step the cursor back and return a
copy of the entry there. -/
def WordManager.get_previous_word (m : WordManager) :
    Option Entry × WordManager :=
  if m.history = [] ∨ m.history_index ≤ 0 then (none, m)
  else
    let i := m.history_index - 1
    (pyGet m.history i, { m with history_index := i })

/-- Method `has_previous_word()`. -/
def WordManager.has_previous_word (m : WordManager) : Bool :=
  0 < m.history.length ∧ 0 < m.history_index

/-- Method `get_next_history_word()`: `None` when history is empty or the browse
cursor is at (or past) the tail; otherwise step the cursor forward and return
a copy of the entry there. -/
def WordManager.get_next_history_word (m : WordManager) :
    Option Entry × WordManager :=
  if m.history = [] ∨ (m.history.length : Int) - 1 ≤ m.history_index then
    (none, m)
  else
    let i := m.history_index + 1
    (pyGet m.history i, { m with history_index := i })

/-- Method `has_next_history_word()`. -/
def WordManager.has_next_history_word (m : WordManager) : Bool :=
  0 < m.history.length ∧ m.history_index < (m.history.length : Int) - 1

/-- Method `is_at_history_end()`. -/
def WordManager.is_at_history_end (m : WordManager) : Bool :=
  0 < m.history.length ∧ m.history_index = (m.history.length : Int) - 1

/-- Method `get_history()` (defensive copy — value semantics here). -/
def WordManager.get_history (m : WordManager) : List Entry :=
  m.history

/-- Method `add_word(word, translation, part_of_speech)`: fail on a duplicate `word`
(the found dict is non-empty, hence truthy), otherwise append and set the
dirty flag. -/
def WordManager.add_word (m : WordManager)
    (word translation part_of_speech : String) : Bool × WordManager :=
  if (m.find_word word (some .word)).isSome then (false, m)
  else
    (true, { m with
      words := m.words ++ [⟨word, translation, part_of_speech⟩],
      is_dirty := true })

/-- A partial-update payload for `edit_word`: for each key, `some v` if the
key is present with value `v`, `none` if absent. -/
structure Updates where
  word : Option String
  translation : Option String
  partOfSpeech : Option String
deriving Repr, DecidableEq

/-- The `updates` argument of `edit_word`: a dict, or a value of another type
(rejected by the `isinstance` check). -/
inductive EditPayload where
  | notDict
  | dict (u : Updates)
deriving Repr, DecidableEq

/-- Python `word_to_edit.update(updates)`: merge semantics, present keys overwrite. -/
def Entry.applyUpdates (e : Entry) (u : Updates) : Entry :=
  { word := u.word.getD e.word,
    translation := u.translation.getD e.translation,
    partOfSpeech := u.partOfSpeech.getD e.partOfSpeech }

/-- In-place mutation of the first entry whose `word` is `orig` (the dict
returned by `find_word` aliases the list element in Python). -/
def updateFirst (l : List Entry) (orig : String) (u : Updates) : List Entry :=
  match l with
  | [] => []
  | e :: rest =>
      if e.word = orig then e.applyUpdates u :: rest
      else e :: updateFirst rest orig u

/-- Method `edit_word(original_word, updates)`.  Note the Python truthiness test
`if new_word and new_word != original_word:` — the collision check runs only
when the payload's `word` value is present, non-empty and different from
`original_word`. -/
def WordManager.edit_word (m : WordManager) (original_word : String)
    (updates : EditPayload) : Bool × WordManager :=
  match updates with
  | .notDict => (false, m)
  | .dict u =>
    if (m.find_word original_word (some .word)).isNone then (false, m)
    else
      let collision :=
        match u.word with
        | some nw =>
            nw ≠ "" && nw ≠ original_word &&
              (m.find_word nw (some .word)).isSome
        | none => false
      if collision then (false, m)
      else
        (true, { m with
          words := updateFirst m.words original_word u,
          is_dirty := true })

/-- Method `delete_word(word_to_delete)`: filter out every matching entry; succeed
(and set the dirty flag) iff the list shrank. -/
def WordManager.delete_word (m : WordManager) (word_to_delete : String) :
    Bool × WordManager :=
  let newWords := m.words.filter (fun e => e.word ≠ word_to_delete)
  if newWords.length < m.words.length then
    (true, { m with words := newWords, is_dirty := true })
  else
    (false, { m with words := newWords })

/-- Method `_save_words()`: on a successful write clear the dirty flag; on `IOError`
print an error and leave all state as it was.  The boolean result records
whether the backing file was successfully written. -/
def WordManager.save_words (m : WordManager) (ok : Bool) :
    WordManager × Bool :=
  if ok then ({ m with is_dirty := false }, true) else (m, false)

/-- Method `save_changes()`: persist only when the dirty flag is set. -/
def WordManager.save_changes (m : WordManager) (ok : Bool) :
    WordManager × Bool :=
  if m.is_dirty then m.save_words ok else (m, false)

/-- One public state-affecting call on the manager (the pure queries
`find_word`, `has_*`, `is_at_history_end`, `get_history`, `get_history_info`,
`get_all_words` never change state and need no constructor). -/
inductive Op where
  | get_random_word (k : Nat)
  | get_next_word
  | reset_sequential_index
  | get_previous_word
  | get_next_history_word
  | add_word (w t p : String)
  | edit_word (ow : String) (payload : EditPayload)
  | delete_word (w : String)
  | save_changes (ok : Bool)
deriving Repr, DecidableEq

/-- Apply one call, keeping only the state. -/
def WordManager.step (m : WordManager) : Op → WordManager
  | .get_random_word k => (m.get_random_word k).2
  | .get_next_word => m.get_next_word.2
  | .reset_sequential_index => m.reset_sequential_index
  | .get_previous_word => m.get_previous_word.2
  | .get_next_history_word => m.get_next_history_word.2
  | .add_word w t p => (m.add_word w t p).2
  | .edit_word ow payload => (m.edit_word ow payload).2
  | .delete_word w => (m.delete_word w).2
  | .save_changes ok => (m.save_changes ok).1

/-- Run a sequence of calls. -/
def WordManager.run (m : WordManager) (ops : List Op) : WordManager :=
  ops.foldl WordManager.step m

/-- The states an actual `WordManager` object can be in: freshly constructed
(from whatever list the file load produced), or reached by one more call. -/
inductive Reachable : WordManager → Prop
  | init (ws : List Entry) : Reachable (WordManager.init ws)
  | step (m : WordManager) (op : Op) :
      Reachable m → Reachable (m.step op)

/-! ## Basic lemmas about the embedding -/

theorem pySliceTo_length_le (l : List Entry) (k : Int) :
    (pySliceTo l k).length ≤ l.length := by
  unfold pySliceTo
  split <;> simp [List.length_take]

theorem histTruncate_length_le (h : List Entry) (i : Int) :
    (histTruncate h i).length ≤ h.length := by
  unfold histTruncate
  split
  · exact pySliceTo_length_le _ _
  · exact le_rfl

theorem histAppend_ne_nil (h0 : List Entry) (w : Entry) :
    histAppend h0 w ≠ [] := by
  unfold histAppend
  split
  · split
    · rename_i hlen
      intro hnil
      rw [List.drop_eq_nil_iff] at hnil
      omega
    · simp
  · rename_i hcond
    intro hnil
    exact hcond (Or.inl hnil)

theorem histAppend_length_le (h0 : List Entry) (w : Entry)
    (hl : h0.length ≤ 100) : (histAppend h0 w).length ≤ 100 := by
  unfold histAppend
  split
  · split <;> rename_i hlen <;> simp [List.length_drop] at * <;> omega
  · exact hl

theorem add_to_history_words (m : WordManager) (w : Entry) :
    (m.add_to_history w).words = m.words := rfl

theorem add_to_history_current_index (m : WordManager) (w : Entry) :
    (m.add_to_history w).current_index = m.current_index := rfl

theorem add_to_history_is_dirty (m : WordManager) (w : Entry) :
    (m.add_to_history w).is_dirty = m.is_dirty := rfl

theorem add_to_history_history (m : WordManager) (w : Entry) :
    (m.add_to_history w).history
      = histAppend (histTruncate m.history m.history_index) w := rfl

theorem add_to_history_tail_index (m : WordManager) (w : Entry) :
    (m.add_to_history w).history_index
      = ((m.add_to_history w).history.length : Int) - 1 := rfl

theorem add_to_history_history_ne_nil (m : WordManager) (w : Entry) :
    (m.add_to_history w).history ≠ [] :=
  histAppend_ne_nil _ _

theorem add_to_history_length_le (m : WordManager) (w : Entry)
    (hl : m.history.length ≤ 100) :
    (m.add_to_history w).history.length ≤ 100 :=
  histAppend_length_le _ _ ((histTruncate_length_le _ _).trans hl)

theorem is_at_history_end_add_to_history (m : WordManager) (w : Entry) :
    (m.add_to_history w).is_at_history_end = true := by
  have h1 := add_to_history_history_ne_nil m w
  rw [WordManager.is_at_history_end]
  simp only [decide_eq_true_eq]
  exact ⟨List.length_pos.mpr h1, add_to_history_tail_index m w⟩

/-! ## Claim C2: undo-log truncation -/

/-- C2: with history `[A, B, C]` and the browse cursor at index 2, two
`get_previous_word` calls move the cursor to index 0; recording a new entry
`D` (word distinct from `A`'s) then truncates the log to `[A, D]` with the
cursor at `D`, after which `has_next_history_word` is `false`. -/
theorem c2_history_truncation (m : WordManager) (A B C D : Entry)
    (hh : m.history = [A, B, C]) (hi : m.history_index = 2)
    (hD : D.word ≠ A.word) :
    m.get_previous_word.2.get_previous_word.2.history_index = 0 ∧
    (m.get_previous_word.2.get_previous_word.2.add_to_history D).history
      = [A, D] ∧
    (m.get_previous_word.2.get_previous_word.2.add_to_history D).history_index
      = 1 ∧
    (m.get_previous_word.2.get_previous_word.2.add_to_history D).has_next_history_word
      = false := by
  have hAD : ¬ (A.word = D.word) := fun h => hD h.symm
  cases m with
  | mk ws ci d h hix =>
    simp only [WordManager.mk.injEq] at hh hi
    subst hh
    subst hi
    simp [WordManager.get_previous_word, WordManager.add_to_history,
      WordManager.has_next_history_word, histTruncate, histAppend,
      pySliceTo, pyGet, hAD]

/-! ## Claim C8: duplicate suppression compares only the word field -/

/-- C8: recording an entry whose `word` equals the current history tail's
`word` leaves the whole state unchanged — no new row is appended, whatever
the entry's `translation` and `partOfSpeech` are (only the `word` field is
compared). -/
theorem c8_duplicate_suppression (m : WordManager) (w : Entry)
    (h1 : m.history ≠ [])
    (h2 : m.history_index = (m.history.length : Int) - 1)
    (h3 : m.history.getLast?.map Entry.word = some w.word) :
    m.add_to_history w = m := by
  cases m with
  | mk ws ci d h hix =>
    simp only [WordManager.mk.injEq] at h2
    simp only at h1 h3
    subst h2
    simp [WordManager.add_to_history, histTruncate, histAppend, h1, h3]

/-! ## Claim C6: write failure leaves the dirty flag and the data intact -/

/-- C6: when the file write fails (`IOError`, caught and logged inside the
method), `save_changes` leaves the whole state unchanged — in particular the
dirty flag stays set and the in-memory word list is untouched — no write
happens, and a later save attempt with a working disk still persists. -/
theorem c6_save_failure (m : WordManager) (h : m.is_dirty = true) :
    (m.save_changes false).1 = m ∧
    (m.save_changes false).1.is_dirty = true ∧
    (m.save_changes false).1.words = m.words ∧
    (m.save_changes false).2 = false ∧
    ((m.save_changes false).1.save_changes true).2 = true := by
  simp [WordManager.save_changes, WordManager.save_words, h]

/-! ## Claim C5: dirty-gate idempotence of saving -/

/-- C5: two consecutive `save_changes` calls write the backing store at most
once; if the first call successfully writes, the second is a complete no-op;
and a successful `edit_word` with the empty payload `{}` still sets the dirty
flag. -/
theorem c5_dirty_gate (m : WordManager) (ok1 ok2 : Bool) (orig : String) :
    (¬ ((m.save_changes ok1).2 = true ∧
        ((m.save_changes ok1).1.save_changes ok2).2 = true)) ∧
    ((m.save_changes ok1).2 = true →
      (m.save_changes ok1).1.save_changes ok2 = ((m.save_changes ok1).1, false)) ∧
    ((m.find_word orig (some .word)).isSome →
      (m.edit_word orig (.dict ⟨none, none, none⟩)).1 = true ∧
      (m.edit_word orig (.dict ⟨none, none, none⟩)).2.is_dirty = true) := by
  refine ⟨?_, ?_, ?_⟩
  · rcases hd : m.is_dirty with _ | _
    · simp [WordManager.save_changes, hd]
    · cases ok1 <;>
        simp [WordManager.save_changes, WordManager.save_words, hd]
  · intro hw
    rcases hd : m.is_dirty with _ | _
    · simp [WordManager.save_changes, hd] at hw
    · cases ok1 <;>
        simp [WordManager.save_changes, WordManager.save_words, hd] at hw ⊢
  · intro hf
    cases hfw : m.find_word orig (some .word) with
    | none => rw [hfw] at hf; simp at hf
    | some e => simp [WordManager.edit_word, hfw]

/-! ## Claim C9: every fetch parks the browse cursor at the history tail -/

/-- C9: whenever `get_random_word` or `get_next_word` returns an entry, the
resulting state has its browse cursor at `len(history) - 1` and
`is_at_history_end` returns `true` — also when the append was suppressed as a
consecutive duplicate (the final cursor assignment is unconditional). -/
theorem c9_fetch_is_at_end (m : WordManager) (k : Nat) :
    ((m.get_random_word k).1.isSome →
      (m.get_random_word k).2.history_index
          = (((m.get_random_word k).2.history.length : Int) - 1) ∧
      (m.get_random_word k).2.is_at_history_end = true) ∧
    (m.get_next_word.1.isSome →
      m.get_next_word.2.history_index
          = ((m.get_next_word.2.history.length : Int) - 1) ∧
      m.get_next_word.2.is_at_history_end = true) := by
  constructor
  · intro hs
    by_cases hw : m.words = []
    · simp [WordManager.get_random_word, hw] at hs
    · cases hg : m.words.get? (k % m.words.length) with
      | none => simp [WordManager.get_random_word, hw, ← List.get?_eq_getElem?,
          hg] at hs
      | some w =>
          simp only [WordManager.get_random_word, hw, hg, if_neg hw]
          exact ⟨add_to_history_tail_index _ _,
            is_at_history_end_add_to_history _ _⟩
  · intro hs
    by_cases hw : m.words = []
    · simp [WordManager.get_next_word, hw] at hs
    · cases hg : pyGet m.words
        (if (m.words.length : Int) ≤ m.current_index + 1 then 0
         else m.current_index + 1) with
      | none => simp [WordManager.get_next_word, hw, hg] at hs
      | some w =>
          simp only [WordManager.get_next_word, hw, hg, if_neg hw]
          exact ⟨add_to_history_tail_index _ _,
            is_at_history_end_add_to_history _ _⟩

/-! ## Claim C4: sequential iteration visits the store in order and wraps -/

/-- State after `k` successive `get_next_word()` calls. -/
def iterNext (m : WordManager) : Nat → WordManager
  | 0 => m
  | k + 1 => (iterNext m k).get_next_word.2

theorem get_next_word_at (m : WordManager) (hne : m.words ≠ []) (j : Nat)
    (hci : m.current_index = (j : Int) - 1) :
    (j < m.words.length →
      m.get_next_word.1 = m.words.get? j ∧
      m.get_next_word.2.current_index = (j : Int) ∧
      m.get_next_word.2.words = m.words) ∧
    (j = m.words.length →
      m.get_next_word.1 = m.words.get? 0 ∧
      m.get_next_word.2.current_index = 0 ∧
      m.get_next_word.2.words = m.words) := by
  have hi : m.current_index + 1 = (j : Int) := by rw [hci]; ring
  constructor
  · intro hj
    have hwrap : ¬ ((m.words.length : Int) ≤ m.current_index + 1) := by
      rw [hi]; omega
    have hpy : pyGet m.words (m.current_index + 1) = m.words.get? j := by
      rw [hi]
      unfold pyGet
      rw [if_pos (by positivity)]
      simp
    have hw : m.words.get? j = some (m.words.get ⟨j, hj⟩) := List.get?_eq_get hj
    simp only [WordManager.get_next_word, if_neg hne, if_neg hwrap, hpy, hw]
    refine ⟨by simp, ?_, add_to_history_words _ _⟩
    rw [add_to_history_current_index]
    exact hi
  · intro hj
    have hwrap : (m.words.length : Int) ≤ m.current_index + 1 := by
      rw [hi, hj]
    have hne' : 0 < m.words.length := List.length_pos.mpr hne
    have hpy : pyGet m.words 0 = m.words.get? 0 := by
      unfold pyGet
      rw [if_pos le_rfl]
      rfl
    have hw : m.words.get? 0 = some (m.words.get ⟨0, hne'⟩) :=
      List.get?_eq_get hne'
    simp only [WordManager.get_next_word, if_neg hne, if_pos hwrap, hpy, hw]
    exact ⟨by simp, by rw [add_to_history_current_index], add_to_history_words _ _⟩

theorem iterNext_state (m : WordManager) (hne : m.words ≠ []) :
    ∀ k, k ≤ m.words.length →
      (iterNext m.reset_sequential_index k).words = m.words ∧
      (iterNext m.reset_sequential_index k).current_index = (k : Int) - 1 := by
  intro k
  induction k with
  | zero => intro _; exact ⟨rfl, rfl⟩
  | succ k ih =>
    intro hk
    obtain ⟨hwords, hci⟩ := ih (Nat.le_of_succ_le hk)
    have hne' : (iterNext m.reset_sequential_index k).words ≠ [] := by
      rw [hwords]; exact hne
    have hstep := (get_next_word_at _ hne' k (by rw [hci])).1
      (by rw [hwords]; omega)
    refine ⟨?_, ?_⟩
    · show ((iterNext m.reset_sequential_index k).get_next_word.2).words = m.words
      rw [hstep.2.2, hwords]
    · show ((iterNext m.reset_sequential_index k).get_next_word.2).current_index
        = ((k + 1 : Nat) : Int) - 1
      rw [hstep.2.1]; push_cast; ring

/-- C4: on a non-empty store of length `n`, after `reset_sequential_index`
the `(k+1)`-th `get_next_word` call (for `k < n`) returns the store entry at
position `k` — so the first `n` calls return the `n` entries exactly once
each, in store order — and the `(n+1)`-th call returns the entry at position
0 again, the same as the 1st call (the cursor wraps). -/
theorem c4_sequential_wrap (m : WordManager) (hne : m.words ≠ []) :
    (∀ k, k < m.words.length →
      (iterNext m.reset_sequential_index k).get_next_word.1 = m.words.get? k) ∧
    (iterNext m.reset_sequential_index m.words.length).get_next_word.1
      = m.words.get? 0 := by
  constructor
  · intro k hk
    obtain ⟨hwords, hci⟩ := iterNext_state m hne k (Nat.le_of_lt hk)
    have hne' : (iterNext m.reset_sequential_index k).words ≠ [] := by
      rw [hwords]; exact hne
    have := (get_next_word_at _ hne' k (by rw [hci])).1 (by rw [hwords]; exact hk)
    rw [this.1, hwords]
  · obtain ⟨hwords, hci⟩ := iterNext_state m hne m.words.length le_rfl
    have hne' : (iterNext m.reset_sequential_index m.words.length).words ≠ [] := by
      rw [hwords]; exact hne
    have := (get_next_word_at _ hne' m.words.length (by rw [hci])).2
      (by rw [hwords])
    rw [this.1, hwords]

/-! ## Claim C10: backward and forward history navigation are inverses -/

theorem add_to_history_index_lt (m : WordManager) (w : Entry) :
    (m.add_to_history w).history_index
      < ((m.add_to_history w).history.length : Int) := by
  rw [add_to_history_tail_index]
  omega

theorem hist_index_lt_step (m : WordManager) (op : Op)
    (h : m.history_index < (m.history.length : Int)) :
    (m.step op).history_index < ((m.step op).history.length : Int) := by
  cases op with
  | get_random_word k =>
    simp only [WordManager.step, WordManager.get_random_word]
    split
    · exact h
    · split
      · exact h
      · exact add_to_history_index_lt _ _
  | get_next_word =>
    simp only [WordManager.step, WordManager.get_next_word]
    split
    · exact h
    · split
      · exact h
      · exact add_to_history_index_lt _ _
  | reset_sequential_index => exact h
  | get_previous_word =>
    simp only [WordManager.step, WordManager.get_previous_word]
    split
    · exact h
    · simp only
      omega
  | get_next_history_word =>
    simp only [WordManager.step, WordManager.get_next_history_word]
    split
    · exact h
    · rename_i hc
      push_neg at hc
      simp only
      omega
  | add_word w t p =>
    simp only [WordManager.step, WordManager.add_word]
    split <;> exact h
  | edit_word ow payload =>
    cases payload with
    | notDict => exact h
    | dict u =>
      simp only [WordManager.step, WordManager.edit_word]
      split
      · exact h
      · split <;> exact h
  | delete_word w =>
    simp only [WordManager.step, WordManager.delete_word]
    split <;> exact h
  | save_changes ok =>
    simp only [WordManager.step, WordManager.save_changes, WordManager.save_words]
    split
    · split <;> exact h
    · exact h

/-- In every reachable state the browse cursor is strictly below the history
length. -/
theorem reachable_hist_index_lt (m : WordManager) (h : Reachable m) :
    m.history_index < (m.history.length : Int) := by
  induction h with
  | init ws => simp [WordManager.init]
  | step m op hm ih => exact hist_index_lt_step m op ih

/-- C10: in any reachable state where `has_previous_word()` is true, calling
`get_previous_word()` and then `get_next_history_word()` restores the state
exactly (in particular the browse cursor), and the second call returns the
history entry at the original cursor position. -/
theorem c10_prev_next_inverse (m : WordManager) (hr : Reachable m)
    (hp : m.has_previous_word = true) :
    m.get_previous_word.2.get_next_history_word.2 = m ∧
    m.get_previous_word.2.get_next_history_word.1
      = m.history.get? m.history_index.toNat ∧
    m.get_previous_word.2.get_next_history_word.1.isSome = true := by
  have hlt := reachable_hist_index_lt m hr
  rw [WordManager.has_previous_word] at hp
  simp only [decide_eq_true_eq] at hp
  obtain ⟨hlen, hpos⟩ := hp
  have hne : m.history ≠ [] := List.ne_nil_of_length_pos hlen
  have hg1 : ¬ (m.history = [] ∨ m.history_index ≤ 0) := by
    push_neg
    exact ⟨hne, by omega⟩
  have hstate1 : m.get_previous_word.2
      = { m with history_index := m.history_index - 1 } := by
    simp only [WordManager.get_previous_word, if_neg hg1]
  rw [hstate1]
  have hg2 : ¬ (({ m with history_index := m.history_index - 1 } :
      WordManager).history = [] ∨
      ((({ m with history_index := m.history_index - 1 } :
        WordManager).history.length : Int) - 1
        ≤ ({ m with history_index := m.history_index - 1 } :
          WordManager).history_index)) := by
    push_neg
    refine ⟨hne, ?_⟩
    show m.history_index - 1 < (m.history.length : Int) - 1
    omega
  have hi : m.history_index - 1 + 1 = m.history_index := by ring
  have hsome : m.history.get? m.history_index.toNat
      = some (m.history.get ⟨m.history_index.toNat, by omega⟩) :=
    List.get?_eq_get (by omega)
  refine ⟨?_, ?_, ?_⟩
  · simp only [WordManager.get_next_history_word, if_neg hg2]
    show ({ m with history_index := m.history_index - 1 + 1 } : WordManager) = m
    rw [hi]
  · simp only [WordManager.get_next_history_word, if_neg hg2]
    show pyGet m.history (m.history_index - 1 + 1)
      = m.history.get? m.history_index.toNat
    rw [hi]
    unfold pyGet
    rw [if_pos (by omega)]
  · simp only [WordManager.get_next_history_word, if_neg hg2]
    show (pyGet m.history (m.history_index - 1 + 1)).isSome = true
    rw [hi]
    unfold pyGet
    rw [if_pos (by omega), hsome]
    rfl

/-! ## Claim C3: the history log is bounded by 100 entries -/

theorem history_le_step (m : WordManager) (op : Op)
    (h : m.history.length ≤ 100) :
    (m.step op).history.length ≤ 100 := by
  cases op with
  | get_random_word k =>
    simp only [WordManager.step, WordManager.get_random_word]
    split
    · exact h
    · split
      · exact h
      · exact add_to_history_length_le _ _ h
  | get_next_word =>
    simp only [WordManager.step, WordManager.get_next_word]
    split
    · exact h
    · split
      · exact h
      · exact add_to_history_length_le _ _ h
  | reset_sequential_index => exact h
  | get_previous_word =>
    simp only [WordManager.step, WordManager.get_previous_word]
    split <;> exact h
  | get_next_history_word =>
    simp only [WordManager.step, WordManager.get_next_history_word]
    split <;> exact h
  | add_word w t p =>
    simp only [WordManager.step, WordManager.add_word]
    split <;> exact h
  | edit_word ow payload =>
    cases payload with
    | notDict => exact h
    | dict u =>
      simp only [WordManager.step, WordManager.edit_word]
      split
      · exact h
      · split <;> exact h
  | delete_word w =>
    simp only [WordManager.step, WordManager.delete_word]
    split <;> exact h
  | save_changes ok =>
    simp only [WordManager.step, WordManager.save_changes, WordManager.save_words]
    split
    · split <;> exact h
    · exact h

theorem history_le_run (m : WordManager) (ops : List Op)
    (h : m.history.length ≤ 100) : (m.run ops).history.length ≤ 100 := by
  induction ops generalizing m with
  | nil => exact h
  | cons op ops ih => exact ih _ (history_le_step m op h)

theorem add_to_history_step_tail (m : WordManager) (w : Entry)
    (hlen : m.history.length ≤ 100)
    (hidx : m.history_index = (m.history.length : Int) - 1)
    (hw : m.history = [] ∨ m.history.getLast?.map Entry.word ≠ some w.word) :
    (m.add_to_history w).history
      = (m.history ++ [w]).drop (m.history.length + 1 - 100) := by
  have htr : histTruncate m.history m.history_index = m.history := by
    unfold histTruncate
    rw [if_neg]
    rw [hidx]
    omega
  rw [add_to_history_history, htr]
  unfold histAppend
  rw [if_pos hw]
  split
  · rename_i hl
    simp only [List.length_append, List.length_singleton] at hl
    congr 1
    omega
  · rename_i hl
    simp only [List.length_append, List.length_singleton, not_lt] at hl
    have h0 : m.history.length + 1 - 100 = 0 := by omega
    rw [h0, List.drop_zero]

theorem fold_add_tail_index (es : List Entry) (m : WordManager)
    (hidx : m.history_index = (m.history.length : Int) - 1) :
    (es.foldl WordManager.add_to_history m).history_index
      = ((es.foldl WordManager.add_to_history m).history.length : Int) - 1 := by
  induction es generalizing m with
  | nil => exact hidx
  | cons w rest ih => exact ih _ (add_to_history_tail_index m w)

theorem fold_add_to_history (es : List Entry) (m : WordManager)
    (hlen : m.history.length ≤ 100)
    (hidx : m.history_index = (m.history.length : Int) - 1)
    (hnd : ((m.history ++ es).map Entry.word).Nodup) :
    (es.foldl WordManager.add_to_history m).history
      = (m.history ++ es).drop (m.history.length + es.length - 100) := by
  induction es generalizing m with
  | nil =>
    have h0 : m.history.length + ([] : List Entry).length - 100 = 0 := by
      simp only [List.length_nil]
      omega
    rw [List.foldl_nil, List.append_nil, h0, List.drop_zero]
  | cons w rest ih =>
    have hw : m.history = [] ∨ m.history.getLast?.map Entry.word ≠ some w.word := by
      by_cases hnil : m.history = []
      · exact Or.inl hnil
      · right
        rw [List.getLast?_eq_getLast_of_ne_nil hnil]
        simp only [Option.map_some', ne_eq, Option.some.injEq]
        intro heq
        rw [List.map_append, List.nodup_append] at hnd
        obtain ⟨-, -, hdisj⟩ := hnd
        exact hdisj (List.mem_map_of_mem _ (List.getLast_mem hnil))
          (by rw [heq]; exact List.mem_cons_self _ _)
    have hstep := add_to_history_step_tail m w hlen hidx hw
    have hm'len : (m.add_to_history w).history.length ≤ 100 :=
      add_to_history_length_le m w hlen
    have hm'idx : (m.add_to_history w).history_index
        = (((m.add_to_history w).history.length : Int) - 1) :=
      add_to_history_tail_index m w
    have hassoc : (m.history ++ [w]) ++ rest = m.history ++ (w :: rest) := by
      rw [List.append_assoc, List.singleton_append]
    have hnd' : (((m.add_to_history w).history ++ rest).map Entry.word).Nodup := by
      have hsub : List.Sublist ((m.add_to_history w).history ++ rest)
          (m.history ++ (w :: rest)) := by
        rw [hstep, ← hassoc]
        exact List.Sublist.append_right (List.drop_sublist _ _) rest
      exact List.Nodup.sublist (hsub.map Entry.word) hnd
    have hrec := ih (m.add_to_history w) hm'len hm'idx hnd'
    rw [List.foldl_cons, hrec, hstep]
    have hd : m.history.length + 1 - 100 ≤ (m.history ++ [w]).length := by
      simp only [List.length_append, List.length_singleton]
      omega
    rw [← List.drop_append_of_le_length hd, List.drop_drop, hassoc]
    congr 1
    rw [List.length_drop, List.length_append, List.length_singleton,
      List.length_cons]
    omega

/-- C3: over every sequence of operations from a freshly constructed manager
the history log never exceeds 100 entries; and recording 150 entries with
pairwise-distinct words leaves the log holding exactly the most recent 100 of
them in chronological order, with the browse cursor at the valid in-range
index 99. -/
theorem c3_bounded_history :
    (∀ (ws : List Entry) (ops : List Op),
      ((WordManager.init ws).run ops).history.length ≤ 100) ∧
    (∀ es : List Entry, es.length = 150 → (es.map Entry.word).Nodup →
      (es.foldl WordManager.add_to_history (WordManager.init [])).history
        = es.drop 50 ∧
      (es.foldl WordManager.add_to_history (WordManager.init [])).history.length
        = 100 ∧
      (es.foldl WordManager.add_to_history (WordManager.init [])).history_index
        = 99) := by
  constructor
  · intro ws ops
    exact history_le_run _ _ (by simp [WordManager.init])
  · intro es hlen hnd
    have hh := fold_add_to_history es (WordManager.init [])
      (by simp [WordManager.init])
      (by simp [WordManager.init])
      (by simpa [WordManager.init] using hnd)
    have hist_eq :
        (es.foldl WordManager.add_to_history (WordManager.init [])).history
          = es.drop 50 := by
      rw [hh]
      show (([] : List Entry) ++ es).drop (([] : List Entry).length + es.length - 100)
        = es.drop 50
      rw [List.nil_append, List.length_nil, hlen]
    have len_eq :
        (es.foldl WordManager.add_to_history (WordManager.init [])).history.length
          = 100 := by
      rw [hist_eq, List.length_drop, hlen]
    have idx_eq := fold_add_tail_index es (WordManager.init [])
      (by simp [WordManager.init])
    refine ⟨hist_eq, len_eq, ?_⟩
    rw [idx_eq, len_eq]
    rfl

/-! ## Claim C1: uniqueness of words in the store -/

theorem find_word_eq_none_iff (m : WordManager) (v : String) :
    m.find_word v (some .word) = none ↔ ∀ e ∈ m.words, e.word ≠ v := by
  unfold WordManager.find_word
  rw [List.find?_eq_none]
  simp [Entry.getKey]

theorem add_word_nodup (m : WordManager) (w t p : String)
    (hnd : (m.words.map Entry.word).Nodup) :
    ((m.add_word w t p).2.words.map Entry.word).Nodup := by
  unfold WordManager.add_word
  split
  · exact hnd
  · rename_i hf
    simp only [List.map_append, List.map_cons, List.map_nil]
    rw [List.nodup_append]
    refine ⟨hnd, List.nodup_singleton _, ?_⟩
    intro x hx hxw
    simp only [List.mem_singleton] at hxw
    rw [hxw] at hx
    have hnone : m.find_word w (some .word) = none := by
      cases hq : m.find_word w (some .word) with
      | none => rfl
      | some e => rw [hq] at hf; simp at hf
    obtain ⟨e, he, hew⟩ := List.mem_map.mp hx
    exact (find_word_eq_none_iff m w).mp hnone e he hew

theorem updateFirst_map_word_of_none (l : List Entry) (orig : String)
    (u : Updates) (hu : u.word = none) :
    (updateFirst l orig u).map Entry.word = l.map Entry.word := by
  induction l with
  | nil => rfl
  | cons e rest ih =>
    unfold updateFirst
    split
    · simp [Entry.applyUpdates, hu]
    · simp [ih]

theorem updateFirst_map_word_of_self (l : List Entry) (orig : String)
    (u : Updates) (hu : u.word = some orig) :
    (updateFirst l orig u).map Entry.word = l.map Entry.word := by
  induction l with
  | nil => rfl
  | cons e rest ih =>
    unfold updateFirst
    split
    · rename_i he
      simp [Entry.applyUpdates, hu, he]
    · simp [ih]

theorem mem_updateFirst_map_word (l : List Entry) (orig : String)
    (u : Updates) (nw : String) (hu : u.word = some nw) (x : String)
    (hx : x ∈ (updateFirst l orig u).map Entry.word) :
    x ∈ l.map Entry.word ∨ x = nw := by
  induction l with
  | nil => simp [updateFirst] at hx
  | cons e rest ih =>
    unfold updateFirst at hx
    split at hx
    · simp only [List.map_cons, List.mem_cons] at hx
      rcases hx with hx | hx
      · right
        rw [hx]
        simp [Entry.applyUpdates, hu]
      · left
        simp only [List.map_cons, List.mem_cons]
        exact Or.inr hx
    · simp only [List.map_cons, List.mem_cons] at hx
      rcases hx with hx | hx
      · left
        simp only [List.map_cons, List.mem_cons]
        exact Or.inl hx
      · rcases ih hx with h | h
        · left
          simp only [List.map_cons, List.mem_cons]
          exact Or.inr h
        · right
          exact h

theorem updateFirst_nodup (l : List Entry) (orig nw : String) (u : Updates)
    (hu : u.word = some nw)
    (hnot : nw ∉ l.map Entry.word)
    (hnd : (l.map Entry.word).Nodup) :
    ((updateFirst l orig u).map Entry.word).Nodup := by
  induction l with
  | nil => simp [updateFirst]
  | cons e rest ih =>
    simp only [List.map_cons, List.nodup_cons] at hnd
    obtain ⟨he, hrest⟩ := hnd
    have hnot' : nw ∉ rest.map Entry.word := by
      intro hm
      exact hnot (by simp only [List.map_cons, List.mem_cons]; exact Or.inr hm)
    unfold updateFirst
    split
    · simp only [List.map_cons, List.nodup_cons]
      refine ⟨?_, hrest⟩
      show (e.applyUpdates u).word ∉ rest.map Entry.word
      have : (e.applyUpdates u).word = nw := by simp [Entry.applyUpdates, hu]
      rw [this]
      exact hnot'
    · simp only [List.map_cons, List.nodup_cons]
      refine ⟨?_, ih hnot' hrest⟩
      intro hmem
      rcases mem_updateFirst_map_word rest orig u nw hu e.word hmem with h | h
      · exact he h
      · exact hnot (by simp only [List.map_cons, List.mem_cons]; exact Or.inl h.symm)

theorem edit_word_nodup (m : WordManager) (ow : String) (payload : EditPayload)
    (hp : ∀ u, payload = .dict u → u.word ≠ some "")
    (hnd : (m.words.map Entry.word).Nodup) :
    ((m.edit_word ow payload).2.words.map Entry.word).Nodup := by
  cases payload with
  | notDict => exact hnd
  | dict u =>
    unfold WordManager.edit_word
    simp only
    split
    · exact hnd
    · split
      · exact hnd
      · rename_i hfound hcoll
        simp only
        cases hu : u.word with
        | none =>
          rw [updateFirst_map_word_of_none _ _ _ hu]
          exact hnd
        | some nw =>
          have hnw : nw ≠ "" := by
            intro h
            exact hp u rfl (by rw [hu, h])
          by_cases how : nw = ow
          · rw [updateFirst_map_word_of_self _ _ _ (by rw [hu, how])]
            exact hnd
          · have hfind : m.find_word nw (some .word) = none := by
              rw [hu] at hcoll
              simp only [Bool.and_eq_true, decide_eq_true_eq, ne_eq,
                Bool.not_eq_true] at hcoll
              cases hq : m.find_word nw (some .word) with
              | none => rfl
              | some e =>
                exfalso
                apply hcoll
                rw [hq]
                simp [hnw, how]
            have hnotmem : nw ∉ m.words.map Entry.word := by
              intro hm
              obtain ⟨e, he, hew⟩ := List.mem_map.mp hm
              exact (find_word_eq_none_iff m nw).mp hfind e he hew
            exact updateFirst_nodup _ _ _ _ hu hnotmem hnd

/-- Guard on an operation: it is an `add_word` call, or an `edit_word` call
whose payload does not set `word` to the empty string (the amendment forced
by `c1_uniqueness_counterexample`). -/
def Op.addEditOk : Op → Bool
  | .add_word _ _ _ => true
  | .edit_word _ .notDict => true
  | .edit_word _ (.dict u) => u.word ≠ some ""
  | _ => false

theorem step_nodup_of_addEditOk (m : WordManager) (op : Op)
    (hop : op.addEditOk = true)
    (hnd : (m.words.map Entry.word).Nodup) :
    ((m.step op).words.map Entry.word).Nodup := by
  cases op with
  | add_word w t p => exact add_word_nodup m w t p hnd
  | edit_word ow payload =>
    refine edit_word_nodup m ow payload ?_ hnd
    intro u hu
    subst hu
    simpa [Op.addEditOk] using hop
  | get_random_word k => simp [Op.addEditOk] at hop
  | get_next_word => simp [Op.addEditOk] at hop
  | reset_sequential_index => simp [Op.addEditOk] at hop
  | get_previous_word => simp [Op.addEditOk] at hop
  | get_next_history_word => simp [Op.addEditOk] at hop
  | delete_word w => simp [Op.addEditOk] at hop
  | save_changes ok => simp [Op.addEditOk] at hop

/-- C1 (amended): starting from a store satisfying the uniqueness invariant,
any sequence of `add_word` / `edit_word` calls in which no `edit_word`
payload sets the `word` field to the empty string keeps the invariant at
every observation point: no two entries ever share the same `word` value. -/
theorem c1_uniqueness_amended (m : WordManager) (ops : List Op)
    (hops : ∀ op ∈ ops, op.addEditOk = true)
    (hnd : (m.words.map Entry.word).Nodup) :
    ∀ n : Nat, ((m.run (ops.take n)).words.map Entry.word).Nodup := by
  have hrun : ∀ (l : List Op), (∀ op ∈ l, op.addEditOk = true) →
      ∀ (s : WordManager), (s.words.map Entry.word).Nodup →
      ((s.run l).words.map Entry.word).Nodup := by
    intro l
    induction l with
    | nil => intro _ s h; exact h
    | cons op rest ih =>
      intro hall s h
      exact ih (fun o ho => hall o (List.mem_cons_of_mem _ ho)) _
        (step_nodup_of_addEditOk s op (hall op (List.mem_cons_self _ _)) h)
  intro n
  exact hrun (ops.take n)
    (fun o ho => hops o (List.take_subset _ _ ho)) m hnd

/-- C1 counterexample: from the empty store (which satisfies the uniqueness
invariant) the call sequence `add_word("a")`, `add_word("b")`,
`edit_word("a", {word: ""})`, `edit_word("b", {word: ""})` has every call
succeed — the Python truthiness test `if new_word and ...` skips the
collision check for an empty-string rename — and leaves two entries sharing
the word value `""`, refuting the claim as stated. -/
theorem c1_uniqueness_counterexample :
    ((WordManager.init []).add_word "a" "ta" "").1 = true ∧
    (((WordManager.init []).add_word "a" "ta" "").2.add_word "b" "tb" "").1
      = true ∧
    ((((WordManager.init []).add_word "a" "ta" "").2.add_word "b" "tb" "").2.edit_word
      "a" (.dict ⟨some "", none, none⟩)).1 = true ∧
    (((((WordManager.init []).add_word "a" "ta" "").2.add_word "b" "tb" "").2.edit_word
      "a" (.dict ⟨some "", none, none⟩)).2.edit_word
      "b" (.dict ⟨some "", none, none⟩)).1 = true ∧
    ¬ ((((((WordManager.init []).add_word "a" "ta" "").2.add_word "b" "tb" "").2.edit_word
      "a" (.dict ⟨some "", none, none⟩)).2.edit_word
      "b" (.dict ⟨some "", none, none⟩)).2.words.map Entry.word).Nodup := by
  decide

/-! ## Claim C7: failing CRUD calls leave the state unchanged -/

/-- C7 (amended): every failing CRUD call — `add_word` on an existing word,
`edit_word` with a non-dict payload, with an absent original word, or with a
rename to a **non-empty** word colliding with a different existing entry, and
`delete_word` on an absent word — returns `false` and leaves the entire state
(word list, dirty flag, sequential cursor, history log, browse cursor)
unchanged. -/
theorem c7_atomic_failure (m : WordManager) (w t p ow nw dw : String)
    (u : Updates) :
    ((m.find_word w (some .word)).isSome = true → m.add_word w t p = (false, m)) ∧
    (m.edit_word ow .notDict = (false, m)) ∧
    ((m.find_word ow (some .word)).isNone = true →
      m.edit_word ow (.dict u) = (false, m)) ∧
    (u.word = some nw → nw ≠ "" → nw ≠ ow →
      (m.find_word nw (some .word)).isSome = true →
      m.edit_word ow (.dict u) = (false, m)) ∧
    ((m.find_word dw (some .word)).isNone = true →
      m.delete_word dw = (false, m)) := by
  refine ⟨?_, ?_, ?_, ?_, ?_⟩
  · intro hf
    unfold WordManager.add_word
    rw [if_pos hf]
  · rfl
  · intro hn
    unfold WordManager.edit_word
    simp only
    rw [if_pos hn]
  · intro hu hne how hf
    unfold WordManager.edit_word
    simp only
    split
    · rfl
    · rw [if_pos]
      rw [hu]
      simp [hne, how, hf]
  · intro hn
    have hall : ∀ e ∈ m.words, e.word ≠ dw :=
      (find_word_eq_none_iff m dw).mp (Option.isNone_iff_eq_none.mp hn)
    have hfilter : m.words.filter (fun e => e.word ≠ dw) = m.words :=
      List.filter_eq_self.mpr (fun e he => by simpa using hall e he)
    unfold WordManager.delete_word
    simp only [hfilter]
    rw [if_neg (lt_irrefl _)]

/-- C7 counterexample: with store `[{word: ""}, {word: "b"}]`, the call
`edit_word("b", {word: ""})` is a rename colliding with a different existing
entry, yet it returns `true` and mutates the store — the empty-string rename
bypasses the collision check — refuting the claim as stated. -/
theorem c7_atomic_failure_counterexample :
    ((WordManager.init [⟨"", "t1", ""⟩, ⟨"b", "t2", ""⟩]).edit_word
      "b" (.dict ⟨some "", none, none⟩)).1 = true ∧
    ((WordManager.init [⟨"", "t1", ""⟩, ⟨"b", "t2", ""⟩]).edit_word
      "b" (.dict ⟨some "", none, none⟩)).2.words
      ≠ (WordManager.init [⟨"", "t1", ""⟩, ⟨"b", "t2", ""⟩]).words ∧
    ((WordManager.init [⟨"", "t1", ""⟩, ⟨"b", "t2", ""⟩]).edit_word
      "b" (.dict ⟨some "", none, none⟩)).2.is_dirty = true := by
  decide

/-! ## Concrete witnesses -/

/-- A word of length `i`, used to build lists of pairwise-distinct words. -/
def wordOfLen (i : Nat) : String := String.mk (List.replicate i 'a')

/-- A list of `n` entries with pairwise-distinct words. -/
def distinctEntries (n : Nat) : List Entry :=
  (List.range n).map (fun i => ⟨wordOfLen i, "", ""⟩)

theorem distinctEntries_words_nodup (n : Nat) :
    ((distinctEntries n).map Entry.word).Nodup := by
  unfold distinctEntries
  rw [List.map_map]
  have hf : (Entry.word ∘ fun i => (⟨wordOfLen i, "", ""⟩ : Entry))
      = wordOfLen := rfl
  rw [hf]
  refine List.Nodup.map ?_ (List.nodup_range n)
  intro i j hij
  unfold wordOfLen at hij
  have hlen := congrArg (fun s => s.data.length) hij
  simpa using hlen

def c1m : WordManager := WordManager.init [⟨"a", "t", ""⟩]

def c1ops : List Op :=
  [.add_word "b" "u" "", .edit_word "a" (.dict ⟨some "c", none, none⟩)]

theorem c1_uniqueness_amended_witness :
    c1ops.all Op.addEditOk = true ∧
    (c1m.words.map Entry.word).Nodup ∧
    ((c1m.run (c1ops.take 2)).words.map Entry.word).Nodup :=
  ⟨by decide, by decide,
    c1_uniqueness_amended c1m c1ops (by decide) (by decide) 2⟩

def c2m : WordManager :=
  { words := [], current_index := -1, is_dirty := false,
    history := [⟨"a", "1", ""⟩, ⟨"b", "2", ""⟩, ⟨"c", "3", ""⟩],
    history_index := 2 }

theorem c2_history_truncation_witness :
    c2m.history = [⟨"a", "1", ""⟩, ⟨"b", "2", ""⟩, ⟨"c", "3", ""⟩] ∧
    c2m.history_index = 2 ∧
    (⟨"d", "4", ""⟩ : Entry).word ≠ (⟨"a", "1", ""⟩ : Entry).word ∧
    (c2m.get_previous_word.2.get_previous_word.2.history_index = 0 ∧
     (c2m.get_previous_word.2.get_previous_word.2.add_to_history
        ⟨"d", "4", ""⟩).history = [⟨"a", "1", ""⟩, ⟨"d", "4", ""⟩] ∧
     (c2m.get_previous_word.2.get_previous_word.2.add_to_history
        ⟨"d", "4", ""⟩).history_index = 1 ∧
     (c2m.get_previous_word.2.get_previous_word.2.add_to_history
        ⟨"d", "4", ""⟩).has_next_history_word = false) :=
  ⟨rfl, rfl, by decide,
    c2_history_truncation c2m _ _ _ _ rfl rfl (by decide)⟩

theorem c3_bounded_history_witness :
    ((WordManager.init []).run [Op.get_next_word]).history.length ≤ 100 ∧
    (distinctEntries 150).length = 150 ∧
    ((distinctEntries 150).map Entry.word).Nodup ∧
    (((distinctEntries 150).foldl WordManager.add_to_history
        (WordManager.init [])).history = (distinctEntries 150).drop 50 ∧
     ((distinctEntries 150).foldl WordManager.add_to_history
        (WordManager.init [])).history.length = 100 ∧
     ((distinctEntries 150).foldl WordManager.add_to_history
        (WordManager.init [])).history_index = 99) :=
  ⟨c3_bounded_history.1 [] [Op.get_next_word],
   by simp [distinctEntries],
   distinctEntries_words_nodup 150,
   c3_bounded_history.2 (distinctEntries 150)
     (by simp [distinctEntries]) (distinctEntries_words_nodup 150)⟩

def c4m : WordManager :=
  WordManager.init [⟨"cat", "mao", "n."⟩, ⟨"dog", "gou", "n."⟩]

theorem c4_sequential_wrap_witness :
    c4m.words ≠ [] ∧
    (iterNext c4m.reset_sequential_index 1).get_next_word.1
      = c4m.words.get? 1 ∧
    (iterNext c4m.reset_sequential_index c4m.words.length).get_next_word.1
      = c4m.words.get? 0 :=
  ⟨by decide,
   (c4_sequential_wrap c4m (by decide)).1 1 (by decide),
   (c4_sequential_wrap c4m (by decide)).2⟩

def c5m : WordManager :=
  { words := [⟨"a", "t", ""⟩], current_index := -1, is_dirty := true,
    history := [], history_index := -1 }

theorem c5_dirty_gate_witness :
    (¬ ((c5m.save_changes true).2 = true ∧
        ((c5m.save_changes true).1.save_changes true).2 = true)) ∧
    (c5m.save_changes true).2 = true ∧
    (c5m.save_changes true).1.save_changes true
      = ((c5m.save_changes true).1, false) ∧
    (c5m.find_word "a" (some .word)).isSome = true ∧
    ((c5m.edit_word "a" (.dict ⟨none, none, none⟩)).1 = true ∧
     (c5m.edit_word "a" (.dict ⟨none, none, none⟩)).2.is_dirty = true) :=
  ⟨(c5_dirty_gate c5m true true "a").1,
   by decide,
   (c5_dirty_gate c5m true true "a").2.1 (by decide),
   by decide,
   (c5_dirty_gate c5m true true "a").2.2 (by decide)⟩

def c6m : WordManager :=
  { words := [⟨"b", "u", ""⟩], current_index := -1, is_dirty := true,
    history := [], history_index := -1 }

theorem c6_save_failure_witness :
    c6m.is_dirty = true ∧
    ((c6m.save_changes false).1 = c6m ∧
     (c6m.save_changes false).1.is_dirty = true ∧
     (c6m.save_changes false).1.words = c6m.words ∧
     (c6m.save_changes false).2 = false ∧
     ((c6m.save_changes false).1.save_changes true).2 = true) :=
  ⟨rfl, c6_save_failure c6m rfl⟩

def c7m : WordManager := WordManager.init [⟨"a", "t", ""⟩]

theorem c7_atomic_failure_witness :
    (c7m.find_word "a" (some .word)).isSome = true ∧
    c7m.add_word "a" "t" "" = (false, c7m) ∧
    c7m.edit_word "b" .notDict = (false, c7m) ∧
    (c7m.find_word "b" (some .word)).isNone = true ∧
    c7m.edit_word "b" (.dict ⟨some "a", none, none⟩) = (false, c7m) ∧
    (c7m.find_word "c" (some .word)).isNone = true ∧
    c7m.delete_word "c" = (false, c7m) :=
  ⟨by decide,
   (c7_atomic_failure c7m "a" "t" "" "b" "a" "c" ⟨some "a", none, none⟩).1
     (by decide),
   (c7_atomic_failure c7m "a" "t" "" "b" "a" "c" ⟨some "a", none, none⟩).2.1,
   by decide,
   (c7_atomic_failure c7m "a" "t" "" "b" "a" "c" ⟨some "a", none, none⟩).2.2.1
     (by decide),
   by decide,
   (c7_atomic_failure c7m "a" "t" "" "b" "a" "c" ⟨some "a", none, none⟩).2.2.2.2
     (by decide)⟩

def c8m : WordManager :=
  { words := [], current_index := -1, is_dirty := false,
    history := [⟨"a", "ta", "n."⟩], history_index := 0 }

theorem c8_duplicate_suppression_witness :
    c8m.history ≠ [] ∧
    c8m.history_index = (c8m.history.length : Int) - 1 ∧
    c8m.history.getLast?.map Entry.word
      = some (⟨"a", "other", "v."⟩ : Entry).word ∧
    c8m.add_to_history ⟨"a", "other", "v."⟩ = c8m :=
  ⟨by decide, by decide, by decide,
   c8_duplicate_suppression c8m ⟨"a", "other", "v."⟩
     (by decide) (by decide) (by decide)⟩

def c9m : WordManager := WordManager.init [⟨"a", "b", "c"⟩]

theorem c9_fetch_is_at_end_witness :
    (c9m.get_random_word 0).1.isSome = true ∧
    ((c9m.get_random_word 0).2.history_index
        = (((c9m.get_random_word 0).2.history.length : Int) - 1) ∧
     (c9m.get_random_word 0).2.is_at_history_end = true) ∧
    c9m.get_next_word.1.isSome = true ∧
    (c9m.get_next_word.2.history_index
        = ((c9m.get_next_word.2.history.length : Int) - 1) ∧
     c9m.get_next_word.2.is_at_history_end = true) :=
  ⟨by decide,
   (c9_fetch_is_at_end c9m 0).1 (by decide),
   by decide,
   (c9_fetch_is_at_end c9m 0).2 (by decide)⟩

def c10m : WordManager :=
  ((WordManager.init [⟨"cat", "mao", "n."⟩, ⟨"dog", "gou", "n."⟩]).step
    .get_next_word).step .get_next_word

theorem c10_prev_next_inverse_witness :
    c10m.has_previous_word = true ∧
    (c10m.get_previous_word.2.get_next_history_word.2 = c10m ∧
     c10m.get_previous_word.2.get_next_history_word.1
       = c10m.history.get? c10m.history_index.toNat ∧
     c10m.get_previous_word.2.get_next_history_word.1.isSome = true) :=
  ⟨by decide,
   c10_prev_next_inverse c10m
     (Reachable.step _ _ (Reachable.step _ _ (Reachable.init _)))
     (by decide)⟩
